import Mathlib

/-!
Verification development for the rock3d photogrammetry preprocessing pipeline.

The repository has two sanitization engines:
  * `src/preprocess.py`    — classical engine (HSV masking + CLAHE + binary
    flattening), stages `stage_1_image_processing`, `stage_2_sanitization`,
    `stage_3_metadata_injection`;
  * `src/preprocess_ia.py` — learned engine (`sanitize_images`,
    `green_spill_reduction`, `transfer_metadata`);
and an orchestrator `src/pipeline.py` (`validate_environment`, `main`).

The shallow embedding below models filenames as Lean `String`s compared by
Unicode code point (exactly how Python compares `str` values, and `pathlib`
paths inside one directory), per-frame decode/inference outcomes as Boolean
predicates on filenames, and pixels as 8-bit channel values with the
floating-point arithmetic of the Python code carried out exactly in `ℚ`.
-/

namespace Rock3D

/-! ### Strings: Python's lexicographic comparison, suffix tests, `Path.stem` -/

/-- Lexicographic strict comparison of character lists by code point.
This is exactly how Python compares two `str` values. -/
def lexLt : List Char → List Char → Bool
  | [], [] => false
  | [], _ :: _ => true
  | _ :: _, [] => false
  | a :: as, b :: bs => if a < b then true else if b < a then false else lexLt as bs

/-- Python's `s < t` on strings. -/
def pyLt (s t : String) : Bool := lexLt s.toList t.toList

/-- Python's `s <= t` on strings (for a total order, `s <= t` iff `¬ t < s`). -/
def pyLe (s t : String) : Bool := !(pyLt t s)

/-- Boolean string equality through the character lists. -/
def strEq (s t : String) : Bool := s.toList == t.toList

/-- `p` is an initial run of `s` (on character lists). -/
def startRun : List Char → List Char → Bool
  | _, [] => true
  | [], _ :: _ => false
  | c :: cs, p :: ps => if c = p then startRun cs ps else false

/-- `s` ends with the suffix `suf` (model of Python's `str.endswith`). -/
def strEndsWith (s suf : String) : Bool :=
  startRun s.toList.reverse suf.toList.reverse

/-- Searches a reversed character list for the first `'.'`; returns the
characters after it (i.e. the reversed stem) when one exists. -/
def stemRev : List Char → Option (List Char)
  | [] => none
  | c :: cs => if c = '.' then some cs else stemRev cs

/-- `pathlib.Path(name).stem` / `os.path.splitext(name)[0]`: the base name
without its final extension; a name whose only dot is leading, or that has no
dot, is its own stem. -/
def stemOf (name : String) : String :=
  match stemRev name.toList.reverse with
  | some cs => if cs.isEmpty then name else ⟨cs.reverse⟩
  | none => name

/-! ### Order lemmas for `lexLt` / `pyLt` -/

theorem lexLt_cons_iff (a b : Char) (as bs : List Char) :
    lexLt (a :: as) (b :: bs) = true ↔ a < b ∨ (a = b ∧ lexLt as bs = true) := by
  show (if a < b then true else if b < a then false else lexLt as bs) = true ↔ _
  split_ifs with h1 h2
  · simp [h1]
  · apply iff_of_false (by simp)
    rintro (h | ⟨rfl, _⟩)
    · exact h1 h
    · exact lt_irrefl a h2
  · have hab : a = b := le_antisymm (not_lt.mp h2) (not_lt.mp h1)
    subst hab
    simp [lt_irrefl]

theorem lexLt_irrefl (l : List Char) : lexLt l l = false := by
  induction l with
  | nil => rfl
  | cons a as ih => simp [lexLt, lt_irrefl, ih]

theorem lexLt_trans :
    ∀ (l m n : List Char), lexLt l m = true → lexLt m n = true → lexLt l n = true := by
  intro l
  induction l with
  | nil =>
    intro m n h1 h2
    cases m with
    | nil => simp [lexLt] at h1
    | cons b bs =>
      cases n with
      | nil => simp [lexLt] at h2
      | cons c cs => simp [lexLt]
  | cons a as ih =>
    intro m n h1 h2
    cases m with
    | nil => simp [lexLt] at h1
    | cons b bs =>
      cases n with
      | nil => simp [lexLt] at h2
      | cons c cs =>
        rw [lexLt_cons_iff] at h1 h2 ⊢
        rcases h1 with h1 | ⟨rfl, h1⟩
        · rcases h2 with h2 | ⟨rfl, h2⟩
          · exact Or.inl (lt_trans h1 h2)
          · exact Or.inl h1
        · rcases h2 with h2 | ⟨rfl, h2⟩
          · exact Or.inl h2
          · exact Or.inr ⟨rfl, ih bs cs h1 h2⟩

theorem lexLt_conn :
    ∀ (l m : List Char), lexLt l m = false → lexLt m l = false → l = m := by
  intro l
  induction l with
  | nil =>
    intro m h1 _
    cases m with
    | nil => rfl
    | cons b bs => simp [lexLt] at h1
  | cons a as ih =>
    intro m h1 h2
    cases m with
    | nil => simp [lexLt] at h2
    | cons b bs =>
      have h1' : ¬ (a < b ∨ (a = b ∧ lexLt as bs = true)) := by
        rw [← lexLt_cons_iff]
        simp [h1]
      have h2' : ¬ (b < a ∨ (b = a ∧ lexLt bs as = true)) := by
        rw [← lexLt_cons_iff]
        simp [h2]
      push_neg at h1' h2'
      have hab : a = b := le_antisymm h2'.1 h1'.1
      subst hab
      have hastail : lexLt as bs = false := by
        have := h1'.2 rfl
        simpa using this
      have hbstail : lexLt bs as = false := by
        have := h2'.2 rfl
        simpa using this
      rw [ih bs hastail hbstail]

theorem toList_inj {s t : String} (h : s.toList = t.toList) : s = t := by
  cases s
  cases t
  exact congrArg String.mk (by simpa [String.toList] using h)

theorem pyLt_irrefl (s : String) : pyLt s s = false := lexLt_irrefl _

theorem pyLt_trans {s t u : String} (h1 : pyLt s t = true) (h2 : pyLt t u = true) :
    pyLt s u = true := lexLt_trans _ _ _ h1 h2

theorem pyLt_conn {s t : String} (h1 : pyLt s t = false) (h2 : pyLt t s = false) :
    s = t := toList_inj (lexLt_conn _ _ h1 h2)

/-! ### Python's `sorted` on a list of names

Python's `sorted` returns the ascending reordering of its input; on a
duplicate-free list that reordering is the unique permutation that is pairwise
`<=`-ordered, so any correct sort embeds it.  We use insertion sort. -/

/-- `sorted(l)` for Python strings: the ascending permutation of `l` under
code-point comparison. -/
def sortNames (l : List String) : List String :=
  List.insertionSort (fun s t => pyLe s t = true) l

theorem sortNames_perm (l : List String) : (sortNames l).Perm l :=
  List.perm_insertionSort _ l

theorem mem_sortNames {x : String} {l : List String} : x ∈ sortNames l ↔ x ∈ l :=
  (sortNames_perm l).mem_iff

theorem sortNames_sorted (l : List String) :
    (sortNames l).Pairwise (fun s t => pyLe s t = true) := by
  haveI : IsTotal String (fun s t => pyLe s t = true) := by
    constructor
    intro a b
    by_cases h : pyLt b a = true
    · right
      have hab : pyLt a b = false := by
        by_contra hc
        have hc' : pyLt a b = true := by simpa using hc
        have hself := pyLt_trans hc' h
        rw [pyLt_irrefl] at hself
        exact Bool.false_ne_true hself
      simp [pyLe, hab]
    · left
      have h' : pyLt b a = false := by simpa using h
      simp [pyLe, h']
  haveI : IsTrans String (fun s t => pyLe s t = true) := by
    constructor
    intro a b c hab hbc
    have h1 : pyLt b a = false := by simpa [pyLe] using hab
    have h2 : pyLt c b = false := by simpa [pyLe] using hbc
    have h5 : pyLt c a = false := by
      by_contra hc
      have hc' : pyLt c a = true := by simpa using hc
      by_cases h4 : pyLt b c = true
      · have hba := pyLt_trans h4 hc'
        rw [h1] at hba
        exact Bool.false_ne_true hba
      · have h4' : pyLt b c = false := by simpa using h4
        have hbc' : b = c := pyLt_conn h4' h2
        subst hbc'
        rw [h1] at hc'
        exact Bool.false_ne_true hc'
    simp [pyLe, h5]
  exact List.sorted_insertionSort _ l

theorem sortNames_nodup {l : List String} (h : l.Nodup) : (sortNames l).Nodup :=
  (sortNames_perm l).nodup_iff.mpr h

theorem sortNames_sorted_strict {l : List String} (h : l.Nodup) :
    (sortNames l).Pairwise (fun s t => pyLt s t = true) := by
  have hs := sortNames_sorted l
  have hn : (sortNames l).Pairwise (fun s t => s ≠ t) := sortNames_nodup h
  refine (hs.and hn).imp ?_
  intro a b hab
  have h1 : pyLt b a = false := by simpa [pyLe] using hab.1
  by_contra hc
  have h2 : pyLt a b = false := by simpa using hc
  exact hab.2 (pyLt_conn h2 h1)

/-! ### Shared constants of both engines -/

/-- `start_index = 1000`, the first numeric output name, in
`preprocess.py` (`stage_2_sanitization`) and `preprocess_ia.py`
(`sanitize_images`) alike. -/
def START_INDEX : Nat := 1000

/-- The glob patterns both engines use to discover input photographs:
`extensions = ['*.jpg', '*.JPG', '*.jpeg', '*.png']`
(`preprocess.py` line 69, `preprocess_ia.py` line 70). -/
def globPatterns : List String := ["*.jpg", "*.JPG", "*.jpeg", "*.png"]

/-- POSIX glob matching for the patterns above: `*` followed by a literal
suffix matches a name exactly when the name ends with that suffix,
case-sensitively. -/
def matchesPat (pat name : String) : Bool :=
  startRun name.toList.reverse ((pat.toList.drop 1).reverse)

/-- A directory entry is discovered by either engine iff some pattern of
`globPatterns` matches it. -/
def discovered_by_glob (name : String) : Bool :=
  globPatterns.any (fun p => matchesPat p name)

/-- Lower-cases an ASCII letter, the identity elsewhere. -/
def lowerChar (c : Char) : Char :=
  if 65 ≤ c.toNat ∧ c.toNat ≤ 90 then Char.ofNat (c.toNat + 32) else c

/-- The final extension of a name (characters after the last dot), reversed. -/
def extRevOf (name : String) : List Char :=
  name.toList.reverse.takeWhile (fun c => !(c == '.'))

/-- Whether a name contains a dot at all. -/
def hasDot (name : String) : Bool := name.toList.any (fun c => c == '.')

/-- Formalization of the spec's discovery contract (§6): photographs with
extension `.jpg`, `.jpeg` or `.png`, case-insensitively.  This is the
spec-side definition `discovered_by_glob` is compared against. -/
def spec_image_ext (name : String) : Bool :=
  hasDot name &&
    ["jpg", "jpeg", "png"].any
      (fun e => ((extRevOf name).reverse.map lowerChar) == e.toList)

/-! ### Learned engine: `preprocess_ia.py`, `sanitize_images`

The per-frame outcome of `remove` + `cv2.imdecode` is abstracted as a Boolean
predicate `decodeOk` on the file name; construction of the inference session
as a Boolean `sessionOk`. -/

/-- The log line `logger.warning(f"Decodificación fallida para {filename}")`
(line 105). -/
def iaWarn (filename : String) : String := "Decodificación fallida para " ++ filename

/-- The `for i, file_path in enumerate(tqdm(files, ...))` loop of
`sanitize_images` (lines 91–130): on success the frame is written as
`{start_index + i}.jpg` and `mapping[stem] = path` is recorded; on failure the
warning is logged and the loop continues.  Note the index `i` advances on
skipped frames too.  Returns (mapping entries in insertion order, warnings in
emission order). -/
def iaLoop (decodeOk : String → Bool) : List String → Nat → List (String × Nat) × List String
  | [], _ => ([], [])
  | f :: fs, i =>
    let rest := iaLoop decodeOk fs (i + 1)
    if decodeOk f then ((stemOf f, START_INDEX + i) :: rest.1, rest.2)
    else (rest.1, iaWarn f :: rest.2)

/-- The same loop keyed by the full file name rather than its stem, recording
for each successfully processed file the numeric index it is written under. -/
def iaLoopNamed (decodeOk : String → Bool) : List String → Nat → List (String × Nat)
  | [], _ => []
  | f :: fs, i =>
    if decodeOk f then (f, START_INDEX + i) :: iaLoopNamed decodeOk fs (i + 1)
    else iaLoopNamed decodeOk fs (i + 1)

/-- The `{original stem ↦ output index}` mapping returned by
`sanitize_images`: empty when no input images are found (line 75–77) or when
`new_session` fails (lines 82–86); otherwise the loop's mapping over the
sorted file list (line 79). -/
def sanitize_mapping (sessionOk : Bool) (decodeOk : String → Bool)
    (files : List String) : List (String × Nat) :=
  if files.isEmpty then []
  else if sessionOk then (iaLoop decodeOk (sortNames files) 0).1
  else []

/-- Observable effects of `sanitize_images` in program order. -/
inductive SanEffect where
  | clearOutputDir
  | globInputDir
  | buildSession
  | writeFrame (idx : Nat)
deriving DecidableEq

/-- The effect trace of `sanitize_images`: the output directory is removed and
recreated (lines 65–67) before the input glob (lines 70–73); when files were
found, `new_session` is attempted (line 83); when it succeeds, the loop writes
one frame per successfully decoded file. -/
def sanitize_trace (sessionOk : Bool) (decodeOk : String → Bool)
    (files : List String) : List SanEffect :=
  SanEffect.clearOutputDir :: SanEffect.globInputDir ::
    (if files.isEmpty then []
     else SanEffect.buildSession ::
       (if sessionOk then
          (iaLoopNamed decodeOk (sortNames files) 0).map (fun p => SanEffect.writeFrame p.2)
        else []))

/-- The exiftool invocation of `transfer_metadata` in `preprocess_ia.py`
(lines 156–164). -/
def transfer_metadata_cmd (rawPath sanPath : String) : List String :=
  ["exiftool", "-overwrite_original", "-TagsFromFile", rawPath, "-all:all", "-n",
   "-Orientation=1", sanPath]

/-! ### Classical engine: `preprocess.py` -/

/-- The temp path `os.path.join(PROCESSED_TEMP_DIR, f"{name}.png")`
(line 101). -/
def tempPngPath (baseName : String) : String :=
  "data/processed_temp/" ++ baseName ++ ".png"

/-- The per-file loop of `stage_1_image_processing` (lines 80–104): a file
whose `cv2.imread` returns `None` is skipped by a bare `continue` (line 85) —
no log line is emitted for it — while a decoded file is processed and added to
`temp_map` keyed by its stem.  Returns (`temp_map` entries in insertion order,
emitted warnings in emission order). -/
def stage_1_loop (decodeOk : String → Bool) :
    List String → List (String × String) × List String
  | [] => ([], [])
  | f :: fs =>
    let rest := stage_1_loop decodeOk fs
    if decodeOk f then ((stemOf f, tempPngPath (stemOf f)) :: rest.1, rest.2)
    else rest

/-- The loop of `stage_2_sanitization` (lines 126–146) over an already sorted
list of original stems: a readable temp frame is written as
`{start_index + count}.jpg` and `count` advances; an unreadable one is skipped
without advancing `count`. -/
def stage_2_loop (readOk : String → Bool) : List String → Nat → List (String × Nat)
  | [], _ => []
  | n :: ns, count =>
    if readOk n then (n, START_INDEX + count) :: stage_2_loop readOk ns (count + 1)
    else stage_2_loop readOk ns count

/-- `stage_2_sanitization`: sorts the original stems
(`sorted(temp_map.keys())`, line 124) and runs the renaming loop from
`count = 0`.  Returns the `{original stem ↦ output index}` mapping. -/
def stage_2_sanitization (readOk : String → Bool) (temp_keys : List String) :
    List (String × Nat) :=
  stage_2_loop readOk (sortNames temp_keys) 0

/-- The exiftool invocation of `stage_3_metadata_injection` in
`preprocess.py` (lines 173–179). -/
def stage_3_cmd (rawPath finalPath : String) : List String :=
  ["exiftool", "-overwrite_original", "-TagsFromFile", rawPath, "-all:all", finalPath]

/-! ### Pixel-level operations

8-bit channel values are naturals `< 256`; the engines' floating-point
arithmetic is carried out exactly in `ℚ`, and `astype(np.uint8)` truncates a
nonnegative value toward zero. -/

/-- `astype(np.uint8)` on a nonnegative value: truncation, modulo 256. -/
def toUint8 (q : ℚ) : ℕ := (⌊q⌋).toNat % 256

/-- Background compositing of the learned engine (`preprocess_ia.py` lines
121–123): `comp_final = (img_rgb * alpha_f) + (bg_black * (1.0 - alpha_f))`
with `alpha_f = a / 255.0` and `bg_black = 0`, per pixel and channel. -/
def composite_ia (rgb alpha : ℕ) : ℚ :=
  (rgb : ℚ) * ((alpha : ℚ) / 255) + 0 * (1 - (alpha : ℚ) / 255)

/-- Background flattening of the classical engine (`preprocess.py` line 135):
`cv2.bitwise_and(c, c, mask=a)` keeps the channel value where the mask byte is
nonzero and zeroes it where the mask byte is zero. -/
def composite_classical (rgb alpha : ℕ) : ℕ :=
  if alpha ≠ 0 then rgb else 0

/-- The spec's compositing formula (§4.3): `out = rgb·(alpha/255)`,
the alpha-weighted blend against a zero background. -/
def spec_blend (rgb alpha : ℕ) : ℚ := (rgb : ℚ) * ((alpha : ℚ) / 255)

/-- `DESPILL_FACTOR = 0.8` (`preprocess_ia.py` line 31). -/
def DESPILL_FACTOR : ℚ := 0.8

/-- `rb_avg = (r + b) / 2.0` (line 48). -/
def rbAvg (r b : ℚ) : ℚ := (r + b) / 2

/-- The corrected green value
`g * (1 - DESPILL_FACTOR) + rb_avg * DESPILL_FACTOR` (line 54). -/
def despillGreen (g avg : ℚ) : ℚ :=
  g * (1 - DESPILL_FACTOR) + avg * DESPILL_FACTOR

/-- One pixel of a BGR image: 8-bit blue, green, red channel values. -/
structure BGRPixel where
  b : ℕ
  g : ℕ
  r : ℕ
deriving DecidableEq

/-- `green_spill_reduction` of `preprocess_ia.py` (lines 33–56), per pixel:
the image is cast to float, the green channel is blended toward the red/blue
average exactly on pixels where green exceeds that average and the mask byte
is nonzero (`spill_mask = (g > rb_avg) & (mask_array > 0)`, line 51), and the
result is cast back to `uint8`. -/
def green_spill_reduction (p : BGRPixel) (mask : ℕ) : BGRPixel :=
  ⟨toUint8 (p.b : ℚ),
   toUint8 (if rbAvg (p.r : ℚ) (p.b : ℚ) < (p.g : ℚ) ∧ 0 < mask
            then despillGreen (p.g : ℚ) (rbAvg (p.r : ℚ) (p.b : ℚ))
            else (p.g : ℚ)),
   toUint8 (p.r : ℚ)⟩

/-! ### Orchestrator: `src/pipeline.py` -/

/-- The state `pipeline.py` reads before running: the two environment
variables, existence of `data/sanitized`, its directory listing, and existence
of `data/recon` from a previous run. -/
structure PipelineEnv where
  alicevision_bin : Option String
  sensor_db : Option String
  input_dir_exists : Bool
  input_files : List String
  recon_exists : Bool

/-- Python truthiness of `os.environ.get(...)`: `None` and the empty string
are falsy. -/
def envTruthy : Option String → Bool
  | none => false
  | some s => !(strEq s "")

/-- `len([f for f in os.listdir(INPUT_IMAGES_DIR) if f.endswith('.jpg')])`
(line 35). -/
def jpgCount (files : List String) : Nat :=
  (files.filter (fun f => strEndsWith f ".jpg")).length

/-- `validate_environment` (lines 23–41): returns success plus the diagnostic
lines printed on the failing branch. -/
def validate_environment (e : PipelineEnv) : Bool × List String :=
  if !(envTruthy e.alicevision_bin && envTruthy e.sensor_db) then
    (false, ["[ERROR] Variables de entorno no configuradas."])
  else if !e.input_dir_exists then
    (false, ["[ERROR] No se encuentra el directorio de entrada: data/sanitized"])
  else if jpgCount e.input_files < 3 then
    (false, ["[ERROR] Insuficientes imágenes en data/sanitized (Encontradas: "
              ++ toString (jpgCount e.input_files) ++ ")."])
  else (true, [])

/-- Filesystem/subprocess effects of `pipeline.py`'s `main`. -/
inductive ReconEffect where
  | clearReconDir
  | makeDir (path : String)
  | runNode (name : String)
deriving DecidableEq

/-- `main` of `pipeline.py` (lines 58–183): on validation failure it exits
with status 1 having touched nothing; otherwise it clears any previous
`data/recon`, recreates it, and runs the ten AliceVision nodes in order
(modelled here for the run in which every node succeeds; a node failure exits
early, which only shortens the tail of the trace).  Returns
(effects, diagnostics, success). -/
def pipeline_main (e : PipelineEnv) : List ReconEffect × List String × Bool :=
  if (validate_environment e).1 then
    ((if e.recon_exists then [ReconEffect.clearReconDir] else []) ++
      ReconEffect.makeDir "data/recon" ::
      ReconEffect.runNode "CameraInit" ::
      ReconEffect.makeDir "data/recon/features" ::
      ReconEffect.runNode "FeatureExtraction" ::
      ReconEffect.runNode "ImageMatching" ::
      ReconEffect.makeDir "data/recon/matches" ::
      (["FeatureMatching", "StructureFromMotion", "PrepareDenseScene",
        "DepthMapEstimation", "DepthMapFiltering", "Meshing",
        "Texturing"].map ReconEffect.runNode),
     (validate_environment e).2, true)
  else ([], (validate_environment e).2, false)

/-- Contiguity of a list of output indices: it is exactly
`base, base+1, …` with no gap. -/
@[reducible] def contiguousFrom (base : ℕ) (l : List ℕ) : Prop :=
  l = (List.range l.length).map (fun k => base + k)

/-! ### Counting and logging lemmas for the per-frame loops -/

theorem length_filter_split (p : String → Bool) (l : List String) :
    (l.filter p).length + (l.filter (fun x => !(p x))).length = l.length := by
  induction l with
  | nil => rfl
  | cons x xs ih =>
    cases hx : p x <;> simp [List.filter, hx, ← ih] <;> omega

theorem iaLoop_fst_length (d : String → Bool) :
    ∀ (fs : List String) (i : ℕ), (iaLoop d fs i).1.length = (fs.filter d).length := by
  intro fs
  induction fs with
  | nil => intro i; rfl
  | cons f fs ih =>
    intro i
    cases hd : d f <;> simp [iaLoop, hd, List.filter, ih]

theorem iaLoop_cons_true (d : String → Bool) (f : String) (fs : List String) (i : ℕ)
    (hd : d f = true) :
    iaLoop d (f :: fs) i
      = ((stemOf f, START_INDEX + i) :: (iaLoop d fs (i + 1)).1,
         (iaLoop d fs (i + 1)).2) := by
  simp [iaLoop, hd]

theorem iaLoop_cons_false (d : String → Bool) (f : String) (fs : List String) (i : ℕ)
    (hd : d f = false) :
    iaLoop d (f :: fs) i
      = ((iaLoop d fs (i + 1)).1, iaWarn f :: (iaLoop d fs (i + 1)).2) := by
  simp [iaLoop, hd]

theorem iaLoopNamed_cons_true (d : String → Bool) (f : String) (fs : List String) (i : ℕ)
    (hd : d f = true) :
    iaLoopNamed d (f :: fs) i = (f, START_INDEX + i) :: iaLoopNamed d fs (i + 1) := by
  simp [iaLoopNamed, hd]

theorem iaLoopNamed_cons_false (d : String → Bool) (f : String) (fs : List String) (i : ℕ)
    (hd : d f = false) :
    iaLoopNamed d (f :: fs) i = iaLoopNamed d fs (i + 1) := by
  simp [iaLoopNamed, hd]

theorem stage_2_loop_cons_true (d : String → Bool) (n : String) (ns : List String) (c : ℕ)
    (hd : d n = true) :
    stage_2_loop d (n :: ns) c
      = (n, START_INDEX + c) :: stage_2_loop d ns (c + 1) := by
  simp [stage_2_loop, hd]

theorem stage_2_loop_cons_false (d : String → Bool) (n : String) (ns : List String) (c : ℕ)
    (hd : d n = false) :
    stage_2_loop d (n :: ns) c = stage_2_loop d ns c := by
  simp [stage_2_loop, hd]

theorem iaLoop_warn_mem (d : String → Bool) :
    ∀ (fs : List String) (i : ℕ) (f : String),
      f ∈ fs → d f = false → iaWarn f ∈ (iaLoop d fs i).2 := by
  intro fs
  induction fs with
  | nil => intro i f hf; simp at hf
  | cons g fs ih =>
    intro i f hf hd
    rcases List.mem_cons.mp hf with rfl | hf
    · rw [iaLoop_cons_false d f fs i hd]
      exact List.mem_cons_self _ _
    · have hrec := ih (i + 1) f hf hd
      cases hg : d g
      · rw [iaLoop_cons_false d g fs i hg]
        exact List.mem_cons_of_mem _ hrec
      · rw [iaLoop_cons_true d g fs i hg]
        exact hrec

theorem stage_1_loop_fst_length (d : String → Bool) :
    ∀ (fs : List String), (stage_1_loop d fs).1.length = (fs.filter d).length := by
  intro fs
  induction fs with
  | nil => rfl
  | cons f fs ih =>
    cases hd : d f <;> simp [stage_1_loop, hd, List.filter, ih]

theorem stage_1_loop_no_warnings (d : String → Bool) :
    ∀ (fs : List String), (stage_1_loop d fs).2 = [] := by
  intro fs
  induction fs with
  | nil => rfl
  | cons f fs ih => cases hd : d f <;> simp [stage_1_loop, hd, ih]

/-! ### Index ordering lemmas -/

theorem iaLoopNamed_bound (d : String → Bool) :
    ∀ (fs : List String) (i : ℕ) (a : String) (x : ℕ),
      (a, x) ∈ iaLoopNamed d fs i → START_INDEX + i ≤ x ∧ a ∈ fs := by
  intro fs
  induction fs with
  | nil => intro i a x h; simp [iaLoopNamed] at h
  | cons f fs ih =>
    intro i a x h
    cases hd : d f
    · rw [iaLoopNamed_cons_false d f fs i hd] at h
      obtain ⟨h1, h2⟩ := ih (i + 1) a x h
      exact ⟨by omega, List.mem_cons_of_mem _ h2⟩
    · rw [iaLoopNamed_cons_true d f fs i hd] at h
      rcases List.mem_cons.mp h with heq | h
      · simp only [Prod.mk.injEq] at heq
        obtain ⟨rfl, rfl⟩ := heq
        exact ⟨le_refl _, List.mem_cons_self _ _⟩
      · obtain ⟨h1, h2⟩ := ih (i + 1) a x h
        exact ⟨by omega, List.mem_cons_of_mem _ h2⟩

theorem iaLoopNamed_ord (d : String → Bool) :
    ∀ (fs : List String) (i : ℕ),
      fs.Pairwise (fun s t => pyLt s t = true) →
      ∀ (a : String) (x : ℕ) (b : String) (y : ℕ),
        (a, x) ∈ iaLoopNamed d fs i → (b, y) ∈ iaLoopNamed d fs i →
        pyLt a b = true → x < y := by
  intro fs
  induction fs with
  | nil => intro i _ a x b y ha; simp [iaLoopNamed] at ha
  | cons f fs ih =>
    intro i hp a x b y ha hb hab
    rw [List.pairwise_cons] at hp
    cases hd : d f
    · rw [iaLoopNamed_cons_false d f fs i hd] at ha hb
      exact ih (i + 1) hp.2 a x b y ha hb hab
    · rw [iaLoopNamed_cons_true d f fs i hd] at ha hb
      rcases List.mem_cons.mp ha with haeq | hatl
      · simp only [Prod.mk.injEq] at haeq
        obtain ⟨rfl, rfl⟩ := haeq
        rcases List.mem_cons.mp hb with hbeq | hbtl
        · simp only [Prod.mk.injEq] at hbeq
          obtain ⟨rfl, _⟩ := hbeq
          rw [pyLt_irrefl] at hab
          exact absurd hab Bool.false_ne_true
        · have := (iaLoopNamed_bound d fs (i + 1) b y hbtl).1
          omega
      · rcases List.mem_cons.mp hb with hbeq | hbtl
        · simp only [Prod.mk.injEq] at hbeq
          obtain ⟨rfl, rfl⟩ := hbeq
          have hmem := (iaLoopNamed_bound d fs (i + 1) a x hatl).2
          have hba : pyLt b a = true := hp.1 a hmem
          have hself := pyLt_trans hba hab
          rw [pyLt_irrefl] at hself
          exact absurd hself Bool.false_ne_true
        · exact ih (i + 1) hp.2 a x b y hatl hbtl hab

theorem stage_2_loop_bound (d : String → Bool) :
    ∀ (ns : List String) (c : ℕ) (a : String) (x : ℕ),
      (a, x) ∈ stage_2_loop d ns c → START_INDEX + c ≤ x ∧ a ∈ ns := by
  intro ns
  induction ns with
  | nil => intro c a x h; simp [stage_2_loop] at h
  | cons n ns ih =>
    intro c a x h
    cases hd : d n
    · rw [stage_2_loop_cons_false d n ns c hd] at h
      obtain ⟨h1, h2⟩ := ih c a x h
      exact ⟨h1, List.mem_cons_of_mem _ h2⟩
    · rw [stage_2_loop_cons_true d n ns c hd] at h
      rcases List.mem_cons.mp h with heq | h
      · simp only [Prod.mk.injEq] at heq
        obtain ⟨rfl, rfl⟩ := heq
        exact ⟨le_refl _, List.mem_cons_self _ _⟩
      · obtain ⟨h1, h2⟩ := ih (c + 1) a x h
        exact ⟨by omega, List.mem_cons_of_mem _ h2⟩

theorem stage_2_loop_ord (d : String → Bool) :
    ∀ (ns : List String) (c : ℕ),
      ns.Pairwise (fun s t => pyLt s t = true) →
      ∀ (a : String) (x : ℕ) (b : String) (y : ℕ),
        (a, x) ∈ stage_2_loop d ns c → (b, y) ∈ stage_2_loop d ns c →
        pyLt a b = true → x < y := by
  intro ns
  induction ns with
  | nil => intro c _ a x b y ha; simp [stage_2_loop] at ha
  | cons n ns ih =>
    intro c hp a x b y ha hb hab
    rw [List.pairwise_cons] at hp
    cases hd : d n
    · rw [stage_2_loop_cons_false d n ns c hd] at ha hb
      exact ih c hp.2 a x b y ha hb hab
    · rw [stage_2_loop_cons_true d n ns c hd] at ha hb
      rcases List.mem_cons.mp ha with haeq | hatl
      · simp only [Prod.mk.injEq] at haeq
        obtain ⟨rfl, rfl⟩ := haeq
        rcases List.mem_cons.mp hb with hbeq | hbtl
        · simp only [Prod.mk.injEq] at hbeq
          obtain ⟨rfl, _⟩ := hbeq
          rw [pyLt_irrefl] at hab
          exact absurd hab Bool.false_ne_true
        · have := (stage_2_loop_bound d ns (c + 1) b y hbtl).1
          omega
      · rcases List.mem_cons.mp hb with hbeq | hbtl
        · simp only [Prod.mk.injEq] at hbeq
          obtain ⟨rfl, rfl⟩ := hbeq
          have hmem := (stage_2_loop_bound d ns (c + 1) a x hatl).2
          have hba : pyLt b a = true := hp.1 a hmem
          have hself := pyLt_trans hba hab
          rw [pyLt_irrefl] at hself
          exact absurd hself Bool.false_ne_true
        · exact ih (c + 1) hp.2 a x b y hatl hbtl hab

/-- The classical engine's output indices are contiguous from
`START_INDEX + c` whatever subset of frames survives: the success counter
advances only on written frames. -/
theorem stage_2_loop_contiguous (d : String → Bool) :
    ∀ (ns : List String) (c : ℕ),
      (stage_2_loop d ns c).map Prod.snd
        = List.range' (START_INDEX + c) (stage_2_loop d ns c).length := by
  intro ns
  induction ns with
  | nil => intro c; rfl
  | cons n ns ih =>
    intro c
    cases hd : d n
    · rw [stage_2_loop_cons_false d n ns c hd]
      exact ih c
    · rw [stage_2_loop_cons_true d n ns c hd]
      simp only [List.map_cons, List.length_cons, List.range'_succ]
      rw [ih (c + 1), Nat.add_assoc]

/-! ### uint8 round trip -/

theorem toUint8_natCast (n : ℕ) (h : n < 256) : toUint8 (n : ℚ) = n := by
  unfold toUint8
  rw [Int.floor_natCast]
  simp [Nat.mod_eq_of_lt h]

/-- The mapping built by the learned engine's loop is the stem projection of
the name-indexed view: `mapping[stem f] = {START_INDEX + i}.jpg` exactly for
the files recorded by `iaLoopNamed`. -/
theorem iaLoop_fst_eq_named (d : String → Bool) :
    ∀ (fs : List String) (i : ℕ),
      (iaLoop d fs i).1 = (iaLoopNamed d fs i).map (fun p => (stemOf p.1, p.2)) := by
  intro fs
  induction fs with
  | nil => intro i; rfl
  | cons f fs ih =>
    intro i
    cases hd : d f
    · rw [iaLoop_cons_false d f fs i hd, iaLoopNamed_cons_false d f fs i hd]
      exact ih (i + 1)
    · rw [iaLoop_cons_true d f fs i hd, iaLoopNamed_cons_true d f fs i hd]
      simp [ih (i + 1)]

/-! ### Claims -/

/-- C1: the claim says the surviving frames of either engine are written under
a contiguous numeric sequence starting at 1000 even when some frames fail and
are skipped.  The learned engine violates this: its output name uses the
`enumerate` loop index, which advances across skipped frames.  With sorted
inputs `a.jpg`, `b.jpg`, `c.jpg` where `b.jpg` fails decoding,
`sanitize_images` writes `1000.jpg` and `1002.jpg`, leaving a gap at `1001`. -/
theorem C1_learned_engine_gap :
    (sanitize_mapping true (fun f => !(strEq f "b.jpg"))
        ["a.jpg", "b.jpg", "c.jpg"]).map Prod.snd = [1000, 1002]
    ∧ ¬ contiguousFrom 1000 [1000, 1002] :=
  ⟨by decide, by decide⟩

/-- C2 counterexample: with `b.jpg` undecodable among three files, the
classical engine's stage 1 skips it (two `temp_map` entries survive) but emits
no logged warning at all, so no warning identifies the skipped file — refuting
the claim that each engine logs such a warning. -/
theorem C2_counterexample :
    (stage_1_loop (fun f => !(strEq f "b.jpg")) ["a.jpg", "b.jpg", "c.jpg"]).1.length = 2
    ∧ (stage_1_loop (fun f => !(strEq f "b.jpg")) ["a.jpg", "b.jpg", "c.jpg"]).2 = [] :=
  ⟨by decide, by decide⟩

/-- C2 amended: with exactly one failing file among `N`, each engine produces
exactly `N - 1` output frames and the run continues; the learned engine logs a
warning identifying the skipped file, while the classical engine skips it
silently (its warning stream is empty). -/
theorem C2_amended_skip (decodeOk : String → Bool) (files : List String) (f : String)
    (hf : f ∈ files) (hfail : decodeOk f = false)
    (hone : (files.filter (fun g => !(decodeOk g))).length = 1) :
    (iaLoop decodeOk (sortNames files) 0).1.length = files.length - 1
    ∧ iaWarn f ∈ (iaLoop decodeOk (sortNames files) 0).2
    ∧ (stage_1_loop decodeOk files).1.length = files.length - 1
    ∧ (stage_1_loop decodeOk files).2 = [] := by
  have hcount : (files.filter decodeOk).length = files.length - 1 := by
    have hsplit := length_filter_split decodeOk files
    omega
  refine ⟨?_, ?_, ?_, ?_⟩
  · rw [iaLoop_fst_length]
    rw [((sortNames_perm files).filter decodeOk).length_eq]
    exact hcount
  · exact iaLoop_warn_mem decodeOk (sortNames files) 0 f (mem_sortNames.mpr hf) hfail
  · rw [stage_1_loop_fst_length]
    exact hcount
  · exact stage_1_loop_no_warnings decodeOk files

/-- C2 witness: the amended statement at the concrete three-file input with
`b.jpg` failing. -/
theorem C2_amended_witness :
    (iaLoop (fun g => !(strEq g "b.jpg")) (sortNames ["a.jpg", "b.jpg", "c.jpg"]) 0).1.length = 2
    ∧ iaWarn "b.jpg"
        ∈ (iaLoop (fun g => !(strEq g "b.jpg")) (sortNames ["a.jpg", "b.jpg", "c.jpg"]) 0).2
    ∧ (stage_1_loop (fun g => !(strEq g "b.jpg")) ["a.jpg", "b.jpg", "c.jpg"]).1.length = 2
    ∧ (stage_1_loop (fun g => !(strEq g "b.jpg")) ["a.jpg", "b.jpg", "c.jpg"]).2 = [] := by
  have h := C2_amended_skip (fun g => !(strEq g "b.jpg")) ["a.jpg", "b.jpg", "c.jpg"] "b.jpg"
    (by decide) (by decide) (by decide)
  exact ⟨h.1, h.2.1, h.2.2.1, h.2.2.2⟩

/-- C3 counterexample: the learned engine sorts full file names, not base
names.  With inputs `b.jpg` and `b-1.jpg`, the base names satisfy
`"b" < "b-1"`, yet `sanitize_images` assigns base name `b` the index 1001 and
base name `b-1` the smaller index 1000 — refuting the claim for the learned
engine. -/
theorem C3_counterexample :
    stemOf "b.jpg" = "b" ∧ stemOf "b-1.jpg" = "b-1" ∧ pyLt "b" "b-1" = true
    ∧ ("b", 1001) ∈ sanitize_mapping true (fun _ => true) ["b.jpg", "b-1.jpg"]
    ∧ ("b-1", 1000) ∈ sanitize_mapping true (fun _ => true) ["b.jpg", "b-1.jpg"] :=
  ⟨by decide, by decide, by decide, by decide, by decide⟩

/-- C3 amended: within the classical engine the claim holds as stated: for
two successfully processed base names `A < B`, `A`'s output index is
strictly smaller.  In the learned engine the same monotonicity holds with
respect to the full file name (stem plus extension), which is what it sorts;
base-name order can disagree with full-name order, as the counterexample
shows. -/
theorem C3_amended_ordering (readOk decodeOk : String → Bool)
    (names files : List String) (hnames : names.Nodup) (hfiles : files.Nodup) :
    (∀ (A : String) (i : ℕ) (B : String) (j : ℕ),
        (A, i) ∈ stage_2_sanitization readOk names →
        (B, j) ∈ stage_2_sanitization readOk names →
        pyLt A B = true → i < j)
    ∧ (∀ (Af : String) (x : ℕ) (Bf : String) (y : ℕ),
        (Af, x) ∈ iaLoopNamed decodeOk (sortNames files) 0 →
        (Bf, y) ∈ iaLoopNamed decodeOk (sortNames files) 0 →
        pyLt Af Bf = true → x < y) := by
  constructor
  · intro A i B j hA hB hAB
    exact stage_2_loop_ord readOk (sortNames names) 0
      (sortNames_sorted_strict hnames) A i B j hA hB hAB
  · intro Af x Bf y hA hB hAB
    exact iaLoopNamed_ord decodeOk (sortNames files) 0
      (sortNames_sorted_strict hfiles) Af x Bf y hA hB hAB

/-- C3 witness: the amended ordering at a concrete two-file input. -/
theorem C3_amended_witness :
    ("a", 1000) ∈ stage_2_sanitization (fun _ => true) ["b", "a"]
    ∧ ("b", 1001) ∈ stage_2_sanitization (fun _ => true) ["b", "a"]
    ∧ ("a.jpg", 1000) ∈ iaLoopNamed (fun _ => true) (sortNames ["b.jpg", "a.jpg"]) 0
    ∧ ("b.jpg", 1001) ∈ iaLoopNamed (fun _ => true) (sortNames ["b.jpg", "a.jpg"]) 0
    ∧ 1000 < 1001 ∧ 1000 < 1001 := by
  have h := C3_amended_ordering (fun _ => true) (fun _ => true) ["b", "a"] ["b.jpg", "a.jpg"]
    (by decide) (by decide)
  refine ⟨by decide, by decide, by decide, by decide, ?_, ?_⟩
  · exact h.1 "a" 1000 "b" 1001 (by decide) (by decide) (by decide)
  · exact h.2 "a.jpg" 1000 "b.jpg" 1001 (by decide) (by decide) (by decide)

/-- C4 counterexample: the classical engine's exiftool command contains no
`-Orientation=1` argument, refuting the claim that both engines normalize
orientation as part of the transfer command. -/
theorem C4_counterexample :
    "-Orientation=1" ∉ stage_3_cmd "data/raw/a.jpg" "data/sanitized/1000.jpg" := by
  decide

/-- C4 amended: only the learned engine's metadata-transfer command includes
the orientation normalization `-Orientation=1`; the classical engine's
command copies all tags without it (for any raw/target paths that are not
themselves that flag string). -/
theorem C4_amended_orientation (rawPath sanPath : String)
    (hraw : rawPath ≠ "-Orientation=1") (hsan : sanPath ≠ "-Orientation=1") :
    "-Orientation=1" ∈ transfer_metadata_cmd rawPath sanPath
    ∧ "-Orientation=1" ∉ stage_3_cmd rawPath sanPath := by
  constructor
  · simp [transfer_metadata_cmd]
  · intro hmem
    simp only [stage_3_cmd, List.mem_cons, List.mem_singleton, List.not_mem_nil,
      or_false] at hmem
    rcases hmem with h | h | h | h | h | h
    · exact absurd h (by decide)
    · exact absurd h (by decide)
    · exact absurd h (by decide)
    · exact hraw h.symm
    · exact absurd h (by decide)
    · exact hsan h.symm

/-- C4 witness: the amended statement at concrete paths. -/
theorem C4_amended_witness :
    "-Orientation=1" ∈ transfer_metadata_cmd "data/raw/IMG_0001.JPG" "data/sanitized/1001.jpg"
    ∧ "-Orientation=1" ∉ stage_3_cmd "data/raw/IMG_0001.JPG" "data/sanitized/1001.jpg" :=
  C4_amended_orientation "data/raw/IMG_0001.JPG" "data/sanitized/1001.jpg"
    (by decide) (by decide)

/-- C5 counterexample: the classical engine's flattening is a binary mask, not
an alpha-weighted blend: at `rgb = 200`, `alpha = 128` it keeps the full value
`200`, while the spec's formula gives `200·(128/255) ≈ 100.4`. -/
theorem C5_counterexample :
    (composite_classical 200 128 : ℚ) ≠ spec_blend 200 128 := by
  norm_num [composite_classical, spec_blend]

/-- C5 amended: the learned engine's compositing equals the spec's
alpha-weighted blend `rgb·(alpha/255)` for every alpha in 0..255 (before the
final uint8 cast); the classical engine instead applies a binary mask — full
value where alpha is nonzero, zero where alpha is zero — which agrees with
the blend formula only at the extreme alpha values 0 and 255. -/
theorem C5_amended_blend (rgb alpha : ℕ) :
    composite_ia rgb alpha = spec_blend rgb alpha
    ∧ composite_classical rgb 255 = rgb
    ∧ composite_classical rgb 0 = 0
    ∧ (composite_classical rgb 255 : ℚ) = spec_blend rgb 255
    ∧ (composite_classical rgb 0 : ℚ) = spec_blend rgb 0 := by
  refine ⟨?_, rfl, rfl, ?_, ?_⟩
  · unfold composite_ia spec_blend
    ring
  · unfold composite_classical spec_blend
    norm_num
  · unfold composite_classical spec_blend
    norm_num

/-- C6: for a pixel inside the mask whose green strictly exceeds the red/blue
average (in naturals, `r + b < 2·g`), `green_spill_reduction` replaces green
by `g·(1-0.8) + avg(r,b)·0.8`, and that corrected value lies strictly between
the red/blue average and the original green — it never overshoots. -/
theorem C6_spill_bound (p : BGRPixel) (mask : ℕ) (hm : 0 < mask)
    (hg : p.r + p.b < 2 * p.g) :
    green_spill_reduction p mask
        = ⟨toUint8 (p.b : ℚ),
           toUint8 (despillGreen (p.g : ℚ) (rbAvg (p.r : ℚ) (p.b : ℚ))),
           toUint8 (p.r : ℚ)⟩
    ∧ rbAvg (p.r : ℚ) (p.b : ℚ) < despillGreen (p.g : ℚ) (rbAvg (p.r : ℚ) (p.b : ℚ))
    ∧ despillGreen (p.g : ℚ) (rbAvg (p.r : ℚ) (p.b : ℚ)) < (p.g : ℚ) := by
  have h2 : (p.r : ℚ) + (p.b : ℚ) < (p.g : ℚ) * 2 := by
    have hcast : ((p.r + p.b : ℕ) : ℚ) < ((2 * p.g : ℕ) : ℚ) := by exact_mod_cast hg
    push_cast at hcast
    linarith
  have hq : rbAvg (p.r : ℚ) (p.b : ℚ) < (p.g : ℚ) := by
    unfold rbAvg
    rw [div_lt_iff₀ (by norm_num : (0:ℚ) < 2)]
    exact h2
  refine ⟨?_, ?_, ?_⟩
  · unfold green_spill_reduction
    rw [if_pos ⟨hq, hm⟩]
  · unfold despillGreen DESPILL_FACTOR
    unfold rbAvg at hq ⊢
    linarith
  · unfold despillGreen DESPILL_FACTOR
    unfold rbAvg at hq ⊢
    linarith

/-- C6 witness: the bound at the concrete pixel `b = 20, g = 100, r = 10`
inside the mask. -/
theorem C6_witness :
    0 < 1 ∧ 10 + 20 < 2 * 100
    ∧ rbAvg ((10 : ℕ) : ℚ) ((20 : ℕ) : ℚ)
        < despillGreen ((100 : ℕ) : ℚ) (rbAvg ((10 : ℕ) : ℚ) ((20 : ℕ) : ℚ))
    ∧ despillGreen ((100 : ℕ) : ℚ) (rbAvg ((10 : ℕ) : ℚ) ((20 : ℕ) : ℚ)) < ((100 : ℕ) : ℚ) := by
  have h := C6_spill_bound ⟨20, 100, 10⟩ 1 (by decide) (by decide)
  exact ⟨by decide, by decide, h.2.1, h.2.2⟩

/-- C7: whenever the sanitized directory holds fewer than three `.jpg` files,
`main` of `pipeline.py` aborts — with a nonempty diagnostic and exit status 1
— before clearing or recreating `data/recon` and before invoking any
AliceVision node: its effect trace is empty. -/
theorem C7_min_input (e : PipelineEnv) (h : jpgCount e.input_files < 3) :
    (pipeline_main e).1 = [] ∧ (pipeline_main e).2.2 = false
    ∧ (pipeline_main e).2.1 ≠ [] := by
  have hv : (validate_environment e).1 = false ∧ (validate_environment e).2 ≠ [] := by
    unfold validate_environment
    split_ifs with h1 h2
    · exact ⟨rfl, by simp⟩
    · exact ⟨rfl, by simp⟩
    · exact ⟨rfl, by simp⟩
  have hmain : pipeline_main e = ([], (validate_environment e).2, false) := by
    unfold pipeline_main
    rw [hv.1]
    simp
  rw [hmain]
  exact ⟨rfl, rfl, hv.2⟩

/-- C7 witness: a fully configured environment whose sanitized directory
holds only two `.jpg` files. -/
theorem C7_witness :
    jpgCount ["1000.jpg", "1001.jpg"] < 3
    ∧ ((pipeline_main ⟨some "av/bin", some "db.json", true, ["1000.jpg", "1001.jpg"], true⟩).1 = []
       ∧ (pipeline_main ⟨some "av/bin", some "db.json", true, ["1000.jpg", "1001.jpg"], true⟩).2.2
           = false
       ∧ (pipeline_main ⟨some "av/bin", some "db.json", true, ["1000.jpg", "1001.jpg"], true⟩).2.1
           ≠ []) :=
  ⟨by decide,
   C7_min_input ⟨some "av/bin", some "db.json", true, ["1000.jpg", "1001.jpg"], true⟩ (by decide)⟩

/-- C8: the code's own comment calls the glob "case insensitive" and the spec
promises discovery of `.jpg`/`.jpeg`/`.png` in any letter case, but the four
patterns `*.jpg`, `*.JPG`, `*.jpeg`, `*.png` are matched case-sensitively:
`photo.PNG` has a `png` extension case-insensitively yet is discovered by
neither engine. -/
theorem C8_uppercase_missed :
    spec_image_ext "photo.PNG" = true ∧ discovered_by_glob "photo.PNG" = false :=
  ⟨by decide, by decide⟩

/-- C9: `green_spill_reduction` touches only the green channel: blue and red
are returned unchanged for 8-bit inputs, and green itself is unchanged on any
pixel outside the mask or whose green does not exceed the red/blue average. -/
theorem C9_green_only (p : BGRPixel) (mask : ℕ)
    (hb : p.b < 256) (hg : p.g < 256) (hr : p.r < 256) :
    (green_spill_reduction p mask).b = p.b
    ∧ (green_spill_reduction p mask).r = p.r
    ∧ ((mask = 0 ∨ 2 * p.g ≤ p.r + p.b) → (green_spill_reduction p mask).g = p.g) := by
  refine ⟨toUint8_natCast p.b hb, toUint8_natCast p.r hr, ?_⟩
  intro hcond
  have hC : ¬ (rbAvg (p.r : ℚ) (p.b : ℚ) < (p.g : ℚ) ∧ 0 < mask) := by
    rcases hcond with h0 | hle
    · rintro ⟨_, hm⟩
      omega
    · rintro ⟨hlt, _⟩
      have h2 : (p.g : ℚ) * 2 ≤ (p.r : ℚ) + (p.b : ℚ) := by
        have hcast : ((2 * p.g : ℕ) : ℚ) ≤ ((p.r + p.b : ℕ) : ℚ) := by exact_mod_cast hle
        push_cast at hcast
        linarith
      have : (p.g : ℚ) ≤ rbAvg (p.r : ℚ) (p.b : ℚ) := by
        unfold rbAvg
        rw [le_div_iff₀ (by norm_num : (0:ℚ) < 2)]
        exact h2
      linarith
  have heq : green_spill_reduction p mask
      = ⟨toUint8 (p.b : ℚ), toUint8 (p.g : ℚ), toUint8 (p.r : ℚ)⟩ := by
    unfold green_spill_reduction
    rw [if_neg hC]
  rw [heq]
  exact toUint8_natCast p.g hg

/-- C9 witness: a pixel outside the mask is returned unchanged. -/
theorem C9_witness :
    (green_spill_reduction ⟨1, 2, 3⟩ 0).b = 1
    ∧ (green_spill_reduction ⟨1, 2, 3⟩ 0).r = 3
    ∧ (green_spill_reduction ⟨1, 2, 3⟩ 0).g = 2 := by
  have h := C9_green_only ⟨1, 2, 3⟩ 0 (by decide) (by decide) (by decide)
  exact ⟨h.1, h.2.1, h.2.2 (Or.inl rfl)⟩

/-- C10: `sanitize_images` deletes and recreates the output directory as its
very first effects, before the input glob and before the inference session is
built; hence a run that finds no input images, or whose session construction
fails, still leaves the previous output erased, returns an empty mapping, and
writes no frame. -/
theorem C10_output_cleared_first (sessionOk : Bool) (decodeOk : String → Bool)
    (files : List String) (h : files = [] ∨ sessionOk = false) :
    (sanitize_trace sessionOk decodeOk files
        = [SanEffect.clearOutputDir, SanEffect.globInputDir]
      ∨ sanitize_trace sessionOk decodeOk files
        = [SanEffect.clearOutputDir, SanEffect.globInputDir, SanEffect.buildSession])
    ∧ sanitize_mapping sessionOk decodeOk files = []
    ∧ ∀ i, SanEffect.writeFrame i ∉ sanitize_trace sessionOk decodeOk files := by
  rcases h with rfl | rfl
  · refine ⟨Or.inl rfl, rfl, ?_⟩
    intro i
    simp [sanitize_trace]
  · cases files with
    | nil =>
      refine ⟨Or.inl rfl, rfl, ?_⟩
      intro i
      simp [sanitize_trace]
    | cons f fs =>
      refine ⟨Or.inr rfl, rfl, ?_⟩
      intro i
      simp [sanitize_trace]

/-- C10 witness: a run whose inference session fails to construct. -/
theorem C10_witness :
    ((sanitize_trace false (fun _ => true) ["x.jpg"]
        = [SanEffect.clearOutputDir, SanEffect.globInputDir]
      ∨ sanitize_trace false (fun _ => true) ["x.jpg"]
        = [SanEffect.clearOutputDir, SanEffect.globInputDir, SanEffect.buildSession])
     ∧ sanitize_mapping false (fun _ => true) ["x.jpg"] = []
     ∧ ∀ i, SanEffect.writeFrame i ∉ sanitize_trace false (fun _ => true) ["x.jpg"]) :=
  C10_output_cleared_first false (fun _ => true) ["x.jpg"] (Or.inr rfl)

end Rock3D
